import Mathlib

/-!
# Verification of the go-crypt hash-string codec

This file is a shallow embedding, in Lean 4, of the generic crypt(3)-style
hash-string codec of the go-crypt repository: the lexer and parser
(`hash/parse/lex.go`, `hash/parse/node.go`), the schema compiler
(`hash/typeinfo.go`: `getRawTypeInfo`, `field`, `normalize`) and the
marshal/unmarshal engines (`marshal.go` / `unmarshal.go`).

Strings are embedded as `List Char` (Go strings are byte-oriented; every
input of interest here is ASCII, so `Char` stands for a byte).  Byte
offsets become `Nat` indices.  Go `int` counters that may become negative
(`numValues`, `numReqValues`, `numGroupValues`) are embedded as `Int`.
Reflection is embedded by an explicit type universe `GoType` restricted to
the kinds the verified claims exercise (strings, byte arrays, pointers);
record instances become association lists from field name to textual
value.  Struct tags arrive pre-split into `TagPart` values, standing for
the comma-separated options of the `hash:"..."` tag.
-/

namespace GoCrypt

/-- Decidable equality for `Except`, so that concrete runs of the codec
can be checked by `decide`. -/
instance {ε α : Type} [DecidableEq ε] [DecidableEq α] : DecidableEq (Except ε α) := fun x y =>
  match x, y with
  | .ok a, .ok b =>
      if h : a = b then .isTrue (h ▸ rfl) else .isFalse fun hc => h (Except.ok.inj hc)
  | .error a, .error b =>
      if h : a = b then .isTrue (h ▸ rfl) else .isFalse fun hc => h (Except.error.inj hc)
  | .ok _, .error _ => .isFalse fun hc => Except.noConfusion hc
  | .error _, .ok _ => .isFalse fun hc => Except.noConfusion hc

abbrev Str := List Char

/-! ## Lexer (`hash/parse/lex.go`) -/

inductive tokenType where
  | tokenError
  | tokenPrefix
  | tokenDollar
  | tokenComma
  | tokenValue
  | tokenEOF
deriving DecidableEq, Repr

structure token where
  typ : tokenType
  pos : Nat
  val : Str
deriving DecidableEq, Repr

/-- `strings.IndexAny(s, "$,")` specialised to the delimiter set of the
lexer (`delimChars = "$,"`); `none` for Go's `-1`. -/
def indexAny : Str → Option Nat
  | [] => none
  | c :: rest => if c = '$' ∨ c = ',' then some 0 else (indexAny rest).map (· + 1)

theorem indexAny_lt {s : Str} {i : Nat} (h : indexAny s = some i) : i < s.length := by
  induction s generalizing i with
  | nil => simp [indexAny] at h
  | cons c rest ih =>
    simp only [indexAny] at h
    split at h
    · injection h with h'
      subst h'
      simp
    · simp only [Option.map_eq_some'] at h
      obtain ⟨j, hj, rfl⟩ := h
      have := ih hj
      simp only [List.length_cons]
      omega

/-- The body of `lexFragment`, with an explicit fuel so that the
recursion is structural (each step consumes at least one character of
`rem`, so any fuel above `rem.length` is enough; `lexFragment` below
supplies it). -/
def lexFragmentGo : Nat → Str → Nat → List token
  | 0, _, _ => []
  | fuel + 1, rem, pos =>
    match indexAny rem with
    | some i =>
        { typ := .tokenValue, pos := pos, val := rem.take i } ::
        { typ := if rem.getD i ' ' = '$' then .tokenDollar else .tokenComma,
          pos := pos + i, val := [rem.getD i ' '] } ::
        lexFragmentGo fuel (rem.drop (i + 1)) (pos + i + 1)
    | none =>
        if rem.length > 0 then
          [{ typ := .tokenValue, pos := pos, val := rem },
           { typ := .tokenEOF, pos := pos + rem.length, val := [] }]
        else
          [{ typ := .tokenEOF, pos := pos, val := [] }]

/-- `lexFragment`: scan the remaining input `rem` (whose first character
sits at absolute offset `pos`), emitting `Value` and delimiter tokens and
finally the `EOF` token. -/
def lexFragment (rem : Str) (pos : Nat) : List token :=
  lexFragmentGo (rem.length + 1) rem pos

/-- The tail of `lexPrefix`: after any `$...$`-style prefix was handled,
the Go lexer separately checks for a `_` prefix (note: not an `else`
branch in the source) and then hands over to `lexFragment`. -/
def lexUnderscore (input : Str) (pos : Nat) : List token :=
  if (input.drop pos).head? = some '_' then
    { typ := .tokenPrefix, pos := pos, val := ['_'] } ::
      lexFragment (input.drop (pos + 1)) (pos + 1)
  else
    lexFragment (input.drop pos) pos

/-- `lex` composed with `lexPrefix`: the whole token stream of an input.
The `$`-prefix state looks for the next `$` or `,` after the leading `$`;
the emitted `Prefix` token spans through the delimiter inclusive. -/
def lex (input : Str) : List token :=
  if input.head? = some '$' then
    match indexAny (input.drop 1) with
    | none => [{ typ := .tokenError, pos := input.length, val := "missing prefix end".toList }]
    | some i =>
        if i = 0 then
          [{ typ := .tokenError, pos := 1, val := "missing prefix identifier".toList }]
        else
          { typ := .tokenPrefix, pos := 0, val := input.take (i + 2) } ::
            lexUnderscore input (i + 2)
  else
    lexUnderscore input 0

/-! ## Parse tree (`hash/parse/node.go`) and parser (`Parse`) -/

structure PrefixNode where
  Text : Str
  endPos : Nat
deriving DecidableEq, Repr

structure ValueNode where
  val : Str
  pos : Nat
  endPos : Nat
deriving DecidableEq, Repr

inductive FragmentNode where
  | value (v : ValueNode)
  | group (vs : List ValueNode)
deriving DecidableEq, Repr

/-- `Node.Type().String()` of a fragment node. -/
def FragmentNode.typStr : FragmentNode → String
  | .value _ => "value"
  | .group _ => "group"

/-- `GroupNode.End()`: position after the last value of the group. -/
def groupEnd (vs : List ValueNode) : Nat :=
  ((vs.getLast?).map ValueNode.endPos).getD 0

/-- `Node.End()` of a fragment node. -/
def FragmentNode.endPos : FragmentNode → Nat
  | .value v => v.endPos
  | .group vs => groupEnd vs

structure Tree where
  Prefix : Option PrefixNode := none
  Fragments : List FragmentNode := []
deriving DecidableEq, Repr

structure SyntaxError where
  Offset : Nat
  Msg : Str
deriving DecidableEq, Repr

/-- The token-consuming loop of `Parse`, with the parser's mutable
`group` and `value` locals made explicit.  An `Error` token aborts with a
`SyntaxError`; `Comma` opens (or extends) a group with the pending value;
`Dollar`/`EOF` close the current fragment. -/
def parseTokens :
    List token → Tree → Option (List ValueNode) → Option ValueNode →
    Except SyntaxError Tree
  | [], tree, _, _ => .ok tree
  | t :: rest, tree, grp, pend =>
    match t.typ with
    | .tokenError => .error { Offset := t.pos, Msg := t.val }
    | .tokenPrefix =>
        parseTokens rest
          { tree with Prefix := some { Text := t.val, endPos := t.val.length } } grp pend
    | .tokenValue =>
        parseTokens rest tree grp
          (some { val := t.val, pos := t.pos, endPos := t.pos + t.val.length })
    | .tokenComma =>
        match pend with
        | some v => parseTokens rest tree (some ((grp.getD []) ++ [v])) none
        | none => parseTokens rest tree grp none
    | .tokenDollar =>
        match pend with
        | some v =>
            match grp with
            | some vs =>
                parseTokens rest
                  { tree with Fragments := tree.Fragments ++ [.group (vs ++ [v])] } none none
            | none =>
                parseTokens rest
                  { tree with Fragments := tree.Fragments ++ [.value v] } none none
        | none => parseTokens rest tree grp none
    | .tokenEOF =>
        match pend with
        | some v =>
            match grp with
            | some vs =>
                .ok { tree with Fragments := tree.Fragments ++ [.group (vs ++ [v])] }
            | none =>
                .ok { tree with Fragments := tree.Fragments ++ [.value v] }
        | none => .ok tree

/-- `parse.Parse`: lex the input and build the tree. -/
def Parse (input : Str) : Except SyntaxError Tree :=
  parseTokens (lex input) {} none none

/-! ## Alphabets (`internal/hashutil/hashutil.go`) -/

/-- The crypt(3) hash alphabet `./0-9A-Za-z`. -/
def hashAlphabet : Str :=
  "./0123456789ABCDEFGHIJKLMNOPQRSTUVWXYZabcdefghijklmnopqrstuvwxyz".toList

/-- The base64 alphabet `A-Za-z0-9+/`. -/
def base64Alphabet : Str :=
  "ABCDEFGHIJKLMNOPQRSTUVWXYZabcdefghijklmnopqrstuvwxyz0123456789+/".toList

inductive Enc where
  | hashEnc
  | base64Enc
deriving DecidableEq, Repr

def Enc.alphabet : Enc → Str
  | .hashEnc => hashAlphabet
  | .base64Enc => base64Alphabet

/-- `Encoding.IndexAnyInvalid`: index of the first character outside the
alphabet, `none` for Go's `-1`. -/
def indexAnyInvalid (e : Enc) : Str → Option Nat
  | [] => none
  | c :: rest =>
      if c ∈ e.alphabet then (indexAnyInvalid e rest).map (· + 1) else some 0

/-! ## Schema compiler (`hash/typeinfo.go`) -/

/-- The slice of Go's type universe that the verified schemas inhabit:
strings, byte arrays `[N]byte` and pointers. -/
inductive GoType where
  | stringT
  | byteArrayT (n : Nat)
  | ptrT (t : GoType)
deriving DecidableEq, Repr

/-- `indirectType`: strip pointer types. -/
def indirectType : GoType → GoType
  | .ptrT t => indirectType t
  | .stringT => .stringT
  | .byteArrayT n => .byteArrayT n

/-- One comma-separated option of a `hash:"..."` struct tag, pre-split.
`lengthT`/`baseT` carry the already-parsed number (`strconv.ParseUint`
bit-size limits are enforced where the option is applied). -/
inductive TagPart where
  | paramT (s : Str)
  | omitemptyT
  | groupT
  | lengthT (n : Nat)
  | inlineT
  | baseT (n : Nat)
  | encT (s : Str)
deriving DecidableEq, Repr

structure fieldOpts where
  Prefix : Bool := false
  OmitEmpty : Bool := false
  Group : Bool := false
  Param : Str := []
  Encoding : Option Enc := some .hashEnc
  Length : Nat := 0
  Inline : Bool := false
  Base : Nat := 10
deriving DecidableEq, Repr

structure fieldInfo where
  Index : List Nat := []
  Name : String
  Typ : GoType := .stringT
  /-- The raw annotation of the field, carried for error reporting
  (Go re-reads it through `reflect` in `field`). -/
  Tag : List TagPart := []
  Opts : fieldOpts := {}
deriving DecidableEq, Repr

/-- `fieldInfo.String()`: the kind description used in error messages. -/
def fieldDesc (fi : fieldInfo) : String :=
  if fi.Opts.Group then "grouped param"
  else if fi.Opts.Param ≠ [] then "param"
  else "value"

structure typeInfo where
  HashPrefix : Option fieldInfo := none
  Fields : List fieldInfo := []
  NumReqValues : Int := 0
deriving DecidableEq, Repr

/-- One step of the tag-option `switch` in `getRawTypeInfo`.  A
`length:<n>` option applies only when it parses as a 32-bit unsigned
number and either no length is set yet or it lowers the current one; a
`base:<n>` option applies only for 8-bit numbers in `2..36`. -/
def applyTagPart (fi : fieldInfo) (p : TagPart) : fieldInfo :=
  match p with
  | .paramT s => { fi with Opts.Param := s }
  | .omitemptyT => { fi with Opts.OmitEmpty := true }
  | .groupT => { fi with Opts.Group := true }
  | .lengthT n =>
      if n < 2 ^ 32 ∧ (fi.Opts.Length = 0 ∨ n < fi.Opts.Length) then
        { fi with Opts.Length := n }
      else fi
  | .inlineT => { fi with Opts.Inline := true }
  | .baseT n =>
      if n < 2 ^ 8 ∧ 2 ≤ n ∧ n ≤ 36 then { fi with Opts.Base := n } else fi
  | .encT s =>
      if s = "base64".toList then { fi with Opts.Encoding := some .base64Enc }
      else if s = "none".toList then { fi with Opts.Encoding := none }
      else fi

/-- The per-field body of `getRawTypeInfo`: defaults (hash encoding, base
10), the `HashPrefix` special case, the derived length of a byte-array
field, then the tag options in order. -/
def compileField (index : List Nat) (name : String) (typ : GoType) (tag : List TagPart) :
    fieldInfo :=
  let fi : fieldInfo := { Index := index, Name := name, Typ := typ, Tag := tag }
  let fi := if name = "HashPrefix" then { fi with Opts.Prefix := true, Opts.Encoding := none } else fi
  let fi :=
    match indirectType typ with
    | .byteArrayT n => { fi with Opts.Length := n }
    | _ => fi
  tag.foldl applyTagPart fi

structure TagParamError where
  Field1 : String
  Field2 : String
  Tag1 : List TagPart
  Tag2 : List TagPart
deriving DecidableEq, Repr

/-- The comparator of the `sort.Slice` call in `field`: by index-path
length, then lexicographically (like `encoding/json`). -/
def indexLess (a b : List Nat) : Bool :=
  if a.length ≠ b.length then decide (a.length < b.length)
  else
    let rec lexCmp : List Nat → List Nat → Bool
      | [], _ => false
      | _ :: _, [] => false
      | x :: xs, y :: ys => if x ≠ y then decide (x < y) else lexCmp xs ys
    lexCmp a b

/-- The collection loop of `field`: gather the fields tagged with the
given param, failing with a `TagParamError` as soon as one has the same
index-path depth as an already-collected one. -/
def collectParam (p : Str) : List fieldInfo → List fieldInfo →
    Except TagParamError (List fieldInfo)
  | acc, [] => .ok acc
  | acc, fi1 :: rest =>
      if fi1.Opts.Param ≠ p then collectParam p acc rest
      else
        match acc.find? (fun fi2 => fi1.Index.length = fi2.Index.length) with
        | some fi2 =>
            .error { Field1 := fi1.Name, Tag1 := fi1.Tag, Field2 := fi2.Name, Tag2 := fi2.Tag }
        | none => collectParam p (acc ++ [fi1]) rest

/-- Select the minimum of a nonempty list under `indexLess`; with the
collected depths pairwise distinct (guaranteed by `collectParam`) this is
exactly the head of the `sort.Slice`-sorted list that `field` returns. -/
def minByIndex : fieldInfo → List fieldInfo → fieldInfo
  | f, [] => f
  | f, g :: rest => minByIndex (if indexLess g.Index f.Index then g else f) rest

/-- `typeInfo.field`: resolve the single field bound to a param name.
Returns `none` when no field carries the param (the Go code would panic;
its callers never reach this case). -/
def tiField (ti : typeInfo) (p : Str) : Except TagParamError (Option fieldInfo) :=
  (collectParam p [] ti.Fields).map fun l =>
    match l with
    | [] => none
    | f :: rest => some (minByIndex f rest)

inductive CompileError where
  | tagParam (e : TagParamError)
  | invalidTag (fieldName : String)
deriving DecidableEq, Repr

/-- The validity conjunction at the top of `normalize`'s loop. -/
def validOpts (f : fieldInfo) : Bool :=
  (!f.Opts.OmitEmpty || !f.Opts.Inline) &&
  (!f.Opts.Group || f.Opts.Param ≠ []) &&
  (f.Opts.Param = [] || !f.Opts.Prefix) &&
  (!f.Opts.Inline || (!f.Opts.Prefix && f.Opts.Length > 0))

/-- The loop of `typeInfo.normalize`, with the accumulated output fields,
seen params, prefix field and required count made explicit.  `all` stays
the original field list, because `field` resolves params against it. -/
def normalizeLoop (all : List fieldInfo) :
    List fieldInfo → List fieldInfo → List Str → Option fieldInfo → Int →
    Except CompileError typeInfo
  | [], fields, _, pre, req => .ok { HashPrefix := pre, Fields := fields, NumReqValues := req }
  | f :: rest, fields, params, pre, req =>
      if !validOpts f then .error (.invalidTag f.Name)
      else if f.Opts.Prefix then normalizeLoop all rest fields params (some f) req
      else
        let req := if !f.Opts.Group && !f.Opts.OmitEmpty && !f.Opts.Inline then req + 1 else req
        if f.Opts.Param = [] then normalizeLoop all rest (fields ++ [f]) params pre req
        else if f.Opts.Param ∈ params then normalizeLoop all rest fields params pre req
        else
          match tiField { Fields := all } f.Opts.Param with
          | .error e => .error (.tagParam e)
          | .ok none => normalizeLoop all rest fields params pre req
          | .ok (some fi) =>
              normalizeLoop all rest (fields ++ [fi]) (params ++ [f.Opts.Param]) pre req

/-- `typeInfo.normalize` over the raw (flattened) field list. -/
def normalize (raw : List fieldInfo) : Except CompileError typeInfo :=
  normalizeLoop raw raw [] [] none 0

/-! ## Records

A record instance is an association list from field name to the textual
value stored in the field; unbound fields read as the empty value. -/

abbrev Record := List (String × Str)

def setField : Record → String → Str → Record
  | [], nm, v => [(nm, v)]
  | (n, w) :: rest, nm, v => if n = nm then (n, v) :: rest else (n, w) :: setField rest nm v

def getField (r : Record) (nm : String) : Str :=
  ((r.find? (·.1 = nm)).map (·.2)).getD []

/-! ## Unmarshal engine (`unmarshal.go`) -/

structure UnmarshalTypeError where
  val : String
  Offset : Nat
  Field : String := ""
  Msg : String
deriving DecidableEq, Repr

/-- A `parse.Node` as passed to the field-level `unmarshal` function and
to `newUnmarshalError`. -/
inductive PNode where
  | pre (p : PrefixNode)
  | v (n : ValueNode)
  | grp (vs : List ValueNode)

/-- `Node.String()`. -/
def PNode.str : PNode → Str
  | .pre p => p.Text
  | .v n => n.val
  | .grp _ => []

/-- `Node.End()`. -/
def PNode.endPos : PNode → Nat
  | .pre p => p.endPos
  | .v n => n.endPos
  | .grp vs => groupEnd vs

/-- `Node.Type().String()`. -/
def PNode.typStr : PNode → String
  | .pre _ => "prefix"
  | .v _ => "value"
  | .grp _ => "group"

def newUnmarshalError (node : PNode) (fi : fieldInfo) (msg : String) : UnmarshalTypeError :=
  { val := node.typStr, Offset := node.endPos, Field := fi.Name, Msg := msg }

/-- `strings.TrimPrefix`. -/
def trimPrefix (s p : Str) : Str :=
  if p.isPrefixOf s then s.drop p.length else s

/-- The `reflect.Kind` dispatch at the bottom of the field-level
`unmarshal`: a string stores the text; a byte array keeps its declared
size, zero-padded past the copied bytes. -/
def decodeKind (fi : fieldInfo) (s : Str) : Option Str :=
  match indirectType fi.Typ with
  | .stringT => some s
  | .byteArrayT n => some (s.take n ++ List.replicate (n - s.length) (Char.ofNat 0))
  | .ptrT _ => none

def dummyValueNode : ValueNode := { val := [], pos := 0, endPos := 0 }

/-- The field-level `unmarshal(node, ti, fi, v)`: trim the param prefix,
enforce `length`/`inline`, validate against the encoding, then decode by
kind.  Returns the decoded value together with the remaining text of the
fragment when an `inline` field consumed only a prefix of it (Go mutates
the shared `ValueNode` in place). -/
def unmarshalValue (fi : fieldInfo) (node : PNode) :
    Except UnmarshalTypeError (Str × Option Str) := do
  let s := node.str
  let s := if fi.Opts.Param ≠ [] then trimPrefix s (fi.Opts.Param ++ ['=']) else s
  let (s, mutv) ←
    if fi.Opts.Length > 0 then
      if fi.Opts.Inline then
        match node with
        | .v n =>
            if n.val.length < fi.Opts.Length then
              Except.error (newUnmarshalError node fi "length mismatch")
            else
              Except.ok (n.val.take fi.Opts.Length, some (n.val.drop fi.Opts.Length))
        | _ => Except.error (newUnmarshalError node fi "unsupported type")
      else
        if s.length ≠ fi.Opts.Length then
          Except.error (newUnmarshalError node fi "length mismatch")
        else Except.ok (s, none)
    else Except.ok (s, none)
  match fi.Opts.Encoding with
  | some e =>
      match indexAnyInvalid e s with
      | some i =>
          Except.error (newUnmarshalError node fi
            ("invalid character " ++ String.singleton (s.getD i ' ')))
      | none => pure ()
  | none => pure ()
  if fi.Opts.Prefix ∧ indirectType fi.Typ ≠ .stringT then
    Except.error (newUnmarshalError node fi "unsupported type")
  else
    match decodeKind fi s with
    | some v => Except.ok (v, mutv)
    | none => Except.error (newUnmarshalError node fi "unsupported type")

/-- The loop state of `Unmarshal`: the fragment cursor, the `numValues`
and `numReqValues` counters, the open-group context and the (possibly
inline-mutated) fragments, plus the record being filled. -/
structure UState where
  fragIdx : Nat := 0
  numValues : Int := 0
  numReqValues : Int := 0
  groupCtx : Option (List ValueNode) := none
  numGroupValues : Int := 0
  Fragments : List FragmentNode := []
  record : Record := []
deriving DecidableEq, Repr

/-- The "end of group" step at the top of the field loop: a non-group
field closes an open group, which must have been fully consumed. -/
def closeGroup (fi : fieldInfo) (st : UState) : Except UnmarshalTypeError UState :=
  if !fi.Opts.Group then
    match st.groupCtx with
    | some vs =>
        if st.numGroupValues > 0 then
          .error (newUnmarshalError (.grp vs) fi "excessive fragment")
        else .ok { st with fragIdx := st.fragIdx + 1, groupCtx := none }
    | none => .ok st
  else .ok st

/-- The grouped-field branch: open or reuse the group context (a lone
value is coerced into a singleton group), bind the first value carrying
`<param>=`, or fail unless the field is optional. -/
def unmarshalGroupField (fi : fieldInfo) (st : UState) (fragP : PNode)
    (vs : List ValueNode) (nGV : Int) : Except UnmarshalTypeError UState :=
  match vs.findIdx? (fun v => (fi.Opts.Param ++ ['=']).isPrefixOf v.val) with
  | some k =>
      let v := vs.getD k dummyValueNode
      match unmarshalValue fi (.v v) with
      | .error e => .error e
      | .ok (dec, mutv) =>
          let vs :=
            match mutv with
            | some newText => vs.set k { v with val := newText }
            | none => vs
          .ok { st with groupCtx := some vs, numGroupValues := nGV - 1,
                        record := setField st.record fi.Name dec }
  | none =>
      if !fi.Opts.OmitEmpty then
        .error (newUnmarshalError fragP fi (fieldDesc fi ++ " not found"))
      else .ok { st with groupCtx := some vs, numGroupValues := nGV }

/-- The param/positional branch: the fragment must be a lone value whose
text starts with the param name (when one is set); bind it, advancing the
cursor unless the field is `inline`, in which case the fragment keeps its
remaining suffix. -/
def unmarshalValueField (fi : fieldInfo) (st : UState) (v : ValueNode) :
    Except UnmarshalTypeError UState :=
  if (fi.Opts.Param ≠ [] ∧ fi.Opts.Param.isPrefixOf v.val) ∨ fi.Opts.Param = [] then
    match unmarshalValue fi (.v v) with
    | .error e => .error e
    | .ok (dec, mutv) =>
        let frags :=
          match mutv with
          | some newText => st.Fragments.set st.fragIdx (.value { v with val := newText })
          | none => st.Fragments
        .ok { st with
          record := setField st.record fi.Name dec,
          numValues := st.numValues - 1,
          numReqValues := if !fi.Opts.OmitEmpty then st.numReqValues - 1 else st.numReqValues,
          fragIdx := if !fi.Opts.Inline then st.fragIdx + 1 else st.fragIdx,
          Fragments := frags }
  else if fi.Opts.OmitEmpty then .ok st
  else .error (newUnmarshalError (.v v) fi (fieldDesc fi ++ " not found"))

/-- One iteration of the field loop of `Unmarshal`. -/
def unmarshalField (hashLen : Nat) (fi : fieldInfo) (st : UState) :
    Except UnmarshalTypeError UState := do
  let st ← closeGroup fi st
  if st.fragIdx ≥ st.Fragments.length then
    -- No more fragments
    if fi.Opts.OmitEmpty then .ok st
    else .error { val := "EOF", Offset := hashLen, Field := fi.Name, Msg := "unexpected EOF" }
  else if fi.Opts.OmitEmpty ∧ st.groupCtx = none ∧ st.numValues - st.numReqValues ≤ 0 then
    -- Skip optional value if there are more values needed
    .ok { st with numValues := st.numValues - 1 }
  else
    match st.Fragments.getD st.fragIdx (.value dummyValueNode) with
    | .group gvs =>
        if fi.Opts.Group then
          match st.groupCtx with
          | none => unmarshalGroupField fi st (.grp gvs) gvs gvs.length
          | some cur => unmarshalGroupField fi st (.grp gvs) cur st.numGroupValues
        else if fi.Opts.OmitEmpty then .ok st
        else .error (newUnmarshalError (.grp gvs) fi (fieldDesc fi ++ " not found"))
    | .value v =>
        if fi.Opts.Group ∧ ¬fi.Opts.OmitEmpty then
          -- Single value is consumed when a grouped param is required
          unmarshalGroupField fi st (.v v) [v] 1
        else if ¬fi.Opts.Group then
          unmarshalValueField fi st v
        else .ok st

/-- The field loop of `Unmarshal`. -/
def unmarshalFields (hashLen : Nat) : List fieldInfo → UState → Except UnmarshalTypeError UState
  | [], st => .ok st
  | fi :: rest, st => (unmarshalField hashLen fi st).bind (unmarshalFields hashLen rest)

/-- The cursor check at the very end of `Unmarshal`: a fragment the
cursor never reached is an "excessive fragment". -/
def checkRest (st : UState) : Except UnmarshalTypeError Record :=
  if st.fragIdx < st.Fragments.length then
    let frag := st.Fragments.getD st.fragIdx (.value dummyValueNode)
    .error { val := frag.typStr, Offset := frag.endPos, Msg := "excessive fragment" }
  else .ok st.record

/-- The checks after the field loop: an open group must be consumed and
the cursor must sit at the end of the fragments, else the leftover is an
"excessive fragment". -/
def finalizeUnmarshal (st : UState) : Except UnmarshalTypeError Record :=
  match st.groupCtx with
  | some vs =>
      if st.numGroupValues > 0 then
        .error { val := "group", Offset := groupEnd vs, Msg := "excessive fragment" }
      else checkRest { st with fragIdx := st.fragIdx + 1 }
  | none => checkRest st

/-- The prefix step at the top of `Unmarshal`: bind the tree's prefix to
the `HashPrefix` field, or fail with "prefix not found" at the end of the
input when the tree has none and the field is required. -/
def unmarshalPrefix (ti : typeInfo) (tree : Tree) (hashLen : Nat) :
    Except UnmarshalTypeError Record :=
  match ti.HashPrefix with
  | some f =>
      match tree.Prefix with
      | some p =>
          match unmarshalValue f (.pre p) with
          | .error e => .error e
          | .ok (dec, _) => .ok (setField [] f.Name dec)
      | none =>
          if !f.Opts.OmitEmpty then
            .error { val := "EOF", Offset := hashLen, Field := f.Name, Msg := "prefix not found" }
          else .ok []
  | none => .ok []

/-- The initial loop state of `Unmarshal`: cursor at the first fragment,
`numValues` the number of fragments, `numReqValues` from the schema. -/
def initState (ti : typeInfo) (tree : Tree) (rec0 : Record) : UState :=
  { fragIdx := 0, numValues := (tree.Fragments.length : Int),
    numReqValues := ti.NumReqValues, groupCtx := none, numGroupValues := 0,
    Fragments := tree.Fragments, record := rec0 }

/-- `Unmarshal` from the parse tree on: bind the prefix field, run the
field loop, run the final excessive-fragment checks. -/
def UnmarshalTree (ti : typeInfo) (tree : Tree) (hashLen : Nat) :
    Except UnmarshalTypeError Record :=
  (unmarshalPrefix ti tree hashLen).bind fun rec0 =>
    (unmarshalFields hashLen ti.Fields (initState ti tree rec0)).bind finalizeUnmarshal

inductive UnmarshalError where
  | syn (e : SyntaxError)
  | typ (e : UnmarshalTypeError)
deriving DecidableEq, Repr

/-- `hash.Unmarshal` for an already-compiled schema: parse, then run the
unmarshal engine against the tree. -/
def Unmarshal (input : Str) (ti : typeInfo) : Except UnmarshalError Record :=
  match Parse input with
  | .error e => .error (.syn e)
  | .ok tree => (UnmarshalTree ti tree input.length).mapError .typ

/-! ## Marshal engine (`marshal.go`) -/

structure MarshalError where
  Field : String := ""
  Msg : String
deriving DecidableEq, Repr

/-- `isEmpty` at the kinds the record model stores (string/bytes: empty
iff zero length). -/
def isEmptyVal (v : Str) : Bool := v.length = 0

/-- The field-level `marshal`: render the field's value as text.  String
and byte kinds render as the stored text. -/
def marshalRender (fi : fieldInfo) (v : Str) : Except MarshalError Str :=
  if fi.Opts.Prefix ∧ indirectType fi.Typ ≠ .stringT then
    .error { Field := fi.Name, Msg := "unsupported type" }
  else
    match indirectType fi.Typ with
    | .stringT => .ok v
    | .byteArrayT _ => .ok v
    | .ptrT _ => .error { Field := fi.Name, Msg := "unsupported type" }

/-- `marshalValue`: render, then check the declared length and the
encoding alphabet. -/
def marshalValue (fi : fieldInfo) (v : Str) : Except MarshalError Str := do
  let s ← marshalRender fi v
  if fi.Opts.Length > 0 ∧ s.length ≠ fi.Opts.Length then
    Except.error { Field := fi.Name, Msg := "length mismatch" }
  else
    match fi.Opts.Encoding with
    | some e =>
        match indexAnyInvalid e s with
        | some i =>
            let msg := "invalid character " ++ String.singleton (s.getD i ' ')
            Except.error { Field := fi.Name, Msg := msg }
        | none => Except.ok s
    | none => Except.ok s

/-- The field loop of `Marshal`: skip empty optional fields; join the
rendered texts with no separator after an `inline` field, `,` between two
grouped fields and `$` otherwise; prepend `<param>=` to param fields. -/
def marshalFields (r : Record) : List fieldInfo → Option fieldInfo → Str →
    Except MarshalError Str
  | [], _, buf => .ok buf
  | fi :: rest, prevFi, buf =>
      let fv := getField r fi.Name
      if fi.Opts.OmitEmpty ∧ isEmptyVal fv then marshalFields r rest prevFi buf
      else
        match marshalValue fi fv with
        | .error e => .error e
        | .ok s =>
            let sep : Str :=
              match prevFi with
              | some pf =>
                  if pf.Opts.Inline then []
                  else if pf.Opts.Group ∧ fi.Opts.Group then [','] else ['$']
              | none => []
            let pp : Str := if fi.Opts.Param ≠ [] then fi.Opts.Param ++ ['='] else []
            marshalFields r rest (some fi) (buf ++ sep ++ pp ++ s)

/-- `hash.Marshal` for an already-compiled schema. -/
def Marshal (ti : typeInfo) (r : Record) : Except MarshalError Str :=
  match ti.HashPrefix with
  | some f =>
      match marshalValue f (getField r f.Name) with
      | .error e => .error e
      | .ok s => marshalFields r ti.Fields none s
  | none => marshalFields r ti.Fields none []

/-! ## Concrete schemas

The compiled `typeInfo` of the record types appearing in the verified
scenarios, obtained by running the schema compiler on the flattened field
lists (mirroring the structs of `unmarshal_test.go` and the spec's
scenarios). -/

def mkTI (l : List fieldInfo) : typeInfo := ((normalize l).toOption).getD {}

/-- `struct { S string }` -/
def tiS : typeInfo := mkTI [compileField [0] "S" .stringT []]

/-- `struct { HashPrefix string }` -/
def tiPrefixOnly : typeInfo := mkTI [compileField [0] "HashPrefix" .stringT []]

/-- `struct { S string `param:x` }` -/
def tiParamX : typeInfo := mkTI [compileField [0] "S" .stringT [.paramT "x".toList]]

/-- `struct { S1 string `param:x,group`; S2 string `param:y,group` }` -/
def tiGroupXY : typeInfo :=
  mkTI [compileField [0] "S1" .stringT [.paramT "x".toList, .groupT],
        compileField [1] "S2" .stringT [.paramT "y".toList, .groupT]]

/-- `struct { S1 string `inline,length:3`; S2 string `length:3` }` (the
"inline fields" test). -/
def tiInline : typeInfo :=
  mkTI [compileField [0] "S1" .stringT [.inlineT, .lengthT 3],
        compileField [1] "S2" .stringT [.lengthT 3]]

/-- Two adjacent `inline,length:3` fields (the schema literally named by
the spec's Scenario 3). -/
def tiInline2 : typeInfo :=
  mkTI [compileField [0] "S1" .stringT [.inlineT, .lengthT 3],
        compileField [1] "S2" .stringT [.inlineT, .lengthT 3]]

/-- The Scenario 2 schema `{HashPrefix, A, O1?, O2?, B, O3?, C, O4?, O5?, O6?}`. -/
def tiScen2 : typeInfo :=
  mkTI [compileField [0] "HashPrefix" .stringT [],
        compileField [1] "A" .stringT [],
        compileField [2] "O1" .stringT [.omitemptyT],
        compileField [3] "O2" .stringT [.omitemptyT],
        compileField [4] "B" .stringT [],
        compileField [5] "O3" .stringT [.omitemptyT],
        compileField [6] "C" .stringT [],
        compileField [7] "O4" .stringT [.omitemptyT],
        compileField [8] "O5" .stringT [.omitemptyT],
        compileField [9] "O6" .stringT [.omitemptyT]]

/-- `struct { G string `param:x,group`; O string `omitempty`; A string }`:
a grouped field followed by an optional and a required positional one. -/
def tiGOA : typeInfo :=
  mkTI [compileField [0] "G" .stringT [.paramT "x".toList, .groupT],
        compileField [1] "O" .stringT [.omitemptyT],
        compileField [2] "A" .stringT []]

/-- A single param-tagged field with an arbitrary param name (the compiled
form of `struct { S string `param:<p>` }`). -/
def paramField (p : Str) : fieldInfo :=
  { Index := [0], Name := "S", Typ := .stringT, Tag := [.paramT p], Opts := { Param := p } }

def paramTI (p : Str) : typeInfo :=
  { HashPrefix := none, Fields := [paramField p], NumReqValues := 1 }

/-! ## Purely positional schemas and the spec-side fill function -/

/-- The compiled form of a plain positional `string` field, optional
(`omitempty`) or required. -/
def plainField (nm : String) (opt : Bool) : fieldInfo :=
  { Index := [0], Name := nm, Typ := .stringT,
    Tag := if opt then [.omitemptyT] else [], Opts := { OmitEmpty := opt } }

/-- `|R|`: the required fields of a positional schema given as
(name, optional?) pairs. -/
def reqCount (fs : List (String × Bool)) : Nat := (fs.filter (fun f => !f.2)).length

/-- `|O|`: the optional fields of a positional schema. -/
def optCount (fs : List (String × Bool)) : Nat := (fs.filter (fun f => f.2)).length

/-- The schema of a record whose fields are all plain positional strings. -/
def positionalTI (fs : List (String × Bool)) : typeInfo :=
  { HashPrefix := none, Fields := fs.map (fun f => plainField f.1 f.2),
    NumReqValues := (reqCount fs : Int) }

/-- Modelled from the spec's optional-skip description ("fills fields
left-to-right, skipping ... always the earliest eligible" / "skip the
field ... when (fragments remaining) minus (required fields remaining,
this field excluded) is at most 0"): the reference fill function the
engine is compared against.  `none` marks a skipped (defaulted) field. -/
def fillSpec : List (String × Bool) → List Str → Option (List (String × Option Str))
  | [], [] => some []
  | [], _ :: _ => none
  | (nm, opt) :: rest, frags =>
      match frags with
      | [] =>
          if opt then (fillSpec rest []).map (fun l => (nm, none) :: l) else none
      | f :: fs =>
          if opt ∧ frags.length ≤ reqCount rest then
            (fillSpec rest frags).map (fun l => (nm, none) :: l)
          else
            (fillSpec rest fs).map (fun l => (nm, some f) :: l)

/-- Apply the fill result to a record: bound fields are set, skipped ones
left alone. -/
def applyBinds : Record → List (String × Option Str) → Record
  | r, [] => r
  | r, (nm, some v) :: rest => applyBinds (setField r nm v) rest
  | r, (_, none) :: rest => applyBinds r rest

/-- The texts of a fragment list (all lone values in the positional
setting). -/
def fragTexts (frs : List FragmentNode) : List Str :=
  frs.map fun fr => match fr with | .value v => v.val | .group _ => []

/-- The collection loop of `field`, restricted to an already-filtered
list (proof helper for relating `collectParam` to `List.filter`). -/
def collectGo : List fieldInfo → List fieldInfo → Except TagParamError (List fieldInfo)
  | acc, [] => .ok acc
  | acc, fi1 :: rest =>
      match acc.find? (fun fi2 => fi1.Index.length = fi2.Index.length) with
      | some fi2 =>
          .error { Field1 := fi1.Name, Tag1 := fi1.Tag, Field2 := fi2.Name, Tag2 := fi2.Tag }
      | none => collectGo (acc ++ [fi1]) rest

/-! # Theorems -/

/-- **C3, counterexample**: against the schema with two adjacent `inline`
fields of fixed length 3 — the schema the claim literally names — the
input `"foobar"` does *not* unmarshal successfully: the cursor is never
advanced by an inline field (even once the fragment is exhausted), so the
engine reports "excessive fragment" at offset 6. -/
theorem claim_C3_counterexample :
    Unmarshal "foobar".toList tiInline2 =
      .error (.typ { val := "value", Offset := 6, Field := "", Msg := "excessive fragment" }) := by
  decide

/-- **C3, amended**: a schema whose first field is `inline` with fixed
length 3 and whose second, adjacent field has fixed length 3 but is not
`inline` (the repository's own "inline fields" test) unmarshals
`"foobar"` into `"foo"` and `"bar"`: the inline field takes the first 3
characters and mutates the retained fragment to `"bar"`, which the
non-inline sibling consumes, advancing the cursor, so no "excessive
fragment" error is reported. -/
theorem claim_C3 :
    Unmarshal "foobar".toList tiInline =
      .ok [("S1", "foo".toList), ("S2", "bar".toList)] := by
  decide

/-- **C2, counterexample**: the input `"a$"` is syntactically valid and
fully matches the single-required-string-field schema (`Unmarshal`
succeeds), but marshaling the resulting record yields `"a"`, not `"a$"`:
the trailing `"$"` produces no fragment, so Round-trip B fails. -/
theorem claim_C2_counterexample :
    Unmarshal "a$".toList tiS = .ok [("S", ['a'])] ∧
    Marshal tiS [("S", ['a'])] = .ok ['a'] ∧
    (['a'] : Str) ≠ "a$".toList := by
  decide

/-- **C4, counterexample**: in the schema of `tiInline` the first field is
`inline` and the second is not (they are not "two consecutive inline
fields"), yet `Marshal` concatenates their rendered texts with no
separator — `"foobar"`, not `"foo$bar"` — because the code omits the
separator whenever the *previous* emitted field is inline. -/
theorem claim_C4_counterexample :
    (tiInline.Fields.map (fun f => f.Opts.Inline)) = [true, false] ∧
    Marshal tiInline [("S1", "foo".toList), ("S2", "bar".toList)] = .ok "foobar".toList ∧
    "foobar".toList ≠ "foo".toList ++ ['$'] ++ "bar".toList := by
  decide

/-- **C5, counterexample**: the fragment `"xfoo"` does not start with
`"x="`, yet unmarshaling it against the schema with the single field
`param:x` does not report "param not found": the code only requires the
fragment to start with the param name (no `"="`), and since the `"x="`
prefix is absent, the *entire* text `"xfoo"` is decoded into the field. -/
theorem claim_C5_counterexample :
    ¬ ("x=".toList.isPrefixOf "xfoo".toList) ∧
    Unmarshal "xfoo".toList tiParamX = .ok [("S", "xfoo".toList)] := by
  decide

/-- **C8, counterexample**: `"$x$_"` starts with `'$'` and its next
delimiter is not immediately after the leading `'$'`, but the lexer emits
*two* `Prefix` tokens, not exactly one: after the `"$x$"` token it
separately checks for a `'_'` prefix (the check is not an `else` branch)
and emits a second one-character `Prefix` token. -/
theorem claim_C8_counterexample :
    ("$x$_".toList).head? = some '$' ∧
    indexAny (("$x$_".toList).drop 1) = some 1 ∧
    ((lex "$x$_".toList).filter (fun t => t.typ = .tokenPrefix)).length = 2 ∧
    (2 : Nat) ≠ 1 := by
  decide

/-- **C7**: whenever the prefix field of a schema is required and the
parse tree of the input has no prefix, `Unmarshal` fails with
"prefix not found" at offset = length of the input; in particular the
empty input fails at offset 0. -/
theorem claim_C7 :
    (∀ (ti : typeInfo) (f : fieldInfo) (input : Str) (tree : Tree),
        ti.HashPrefix = some f → f.Opts.OmitEmpty = false →
        Parse input = .ok tree → tree.Prefix = none →
        Unmarshal input ti =
          .error (.typ { val := "EOF", Offset := input.length, Field := f.Name,
                         Msg := "prefix not found" })) ∧
    Unmarshal [] tiPrefixOnly =
      .error (.typ { val := "EOF", Offset := 0, Field := "HashPrefix",
                     Msg := "prefix not found" }) := by
  constructor
  · intro ti f input tree hf hreq hp hnone
    unfold Unmarshal
    rw [hp]
    show Except.mapError UnmarshalError.typ (UnmarshalTree ti tree input.length) = _
    unfold UnmarshalTree unmarshalPrefix
    rw [hf, hnone]
    simp [hreq, Except.mapError, Except.bind]
  · decide

/-- **C7, witness**: the input `"foo"` has a parse tree without a prefix,
so unmarshaling it into a schema with a required prefix field fails with
"prefix not found" at offset 3. -/
theorem claim_C7_witness :
    Unmarshal "foo".toList tiPrefixOnly =
      .error (.typ { val := "EOF", Offset := ("foo".toList).length,
                     Field := (compileField [0] "HashPrefix" .stringT []).Name,
                     Msg := "prefix not found" }) :=
  claim_C7.1 tiPrefixOnly (compileField [0] "HashPrefix" .stringT []) "foo".toList
    { Prefix := none,
      Fragments := [.value { val := "foo".toList, pos := 0, endPos := 3 }] }
    (by decide) (by decide) (by decide) (by decide)

/-- **C10, counterexample**: for a `[0]byte` field (the indirected type
*is* a byte array `[N]byte` with `N = 0`), a `length:5` tag is not
ignored although `5 ≥ N`: the compiled length becomes 5, not `N = 0`,
because the tag applies whenever the current length is 0. -/
theorem claim_C10_counterexample :
    (compileField [0] "S1" (.byteArrayT 0) [.lengthT 5]).Opts.Length = 5 ∧
    (5 : Nat) ≠ 0 := by
  decide

/-- **C10, amended**: for a field whose indirected type is `[N]byte` with
`N ≥ 1`, the compiled `fixedLength` is `N` when no `length:<n>` tag is
given, and a `length:<n>` tag (with `n` parseable as a 32-bit unsigned
number) only lowers it: the length becomes `n` exactly when `n < N` and
stays `N` otherwise.  (For `N = 0` the tag always applies; see the
counterexample.) -/
theorem claim_C10 (nm : String) (ix : List Nat) (t : GoType) (N n : Nat)
    (ht : indirectType t = .byteArrayT N) (hN : 0 < N) (hn : n < 2 ^ 32) :
    (compileField ix nm t []).Opts.Length = N ∧
    (compileField ix nm t [.lengthT n]).Opts.Length = if n < N then n else N := by
  have hN0 : N ≠ 0 := by omega
  have hn' : n < 4294967296 := by omega
  constructor
  · by_cases hnm : nm = "HashPrefix" <;> simp [compileField, ht, hnm]
  · by_cases hnm : nm = "HashPrefix" <;> by_cases hlt : n < N <;>
      simp [compileField, ht, hnm, applyTagPart, hn', hlt, hN0]

/-- **C10, witness**: an `[8]byte` field compiles to fixed length 8 with
no tag, and to 4 with a `length:4` tag. -/
theorem claim_C10_witness :
    (compileField [0] "B" (.byteArrayT 8) []).Opts.Length = 8 ∧
    (compileField [0] "B" (.byteArrayT 8) [.lengthT 4]).Opts.Length = if 4 < 8 then 4 else 8 :=
  claim_C10 "B" [0] (.byteArrayT 8) 8 4 (by decide) (by decide) (by decide)

/-- **C5, amended**: for a non-grouped, non-inline field with param name
`p`, the current fragment's text must start with `p` itself (the code
does not require the `"="`): if `p` is not a prefix, the error is
"param not found"; if the text is `p ++ "=" ++ r`, the remainder `r` is
decoded; but if `p` is a prefix while `p ++ "="` is not, the *entire*
fragment text is decoded into the field. -/
theorem claim_C5 (p : Str) (v : ValueNode) (L : Nat) (hp : p ≠ []) :
    (∀ r, v.val = p ++ '=' :: r → indexAnyInvalid .hashEnc r = none →
        UnmarshalTree (paramTI p) { Prefix := none, Fragments := [.value v] } L =
          .ok [("S", r)]) ∧
    (p <+: v.val → ¬ ((p ++ ['=']) <+: v.val) →
        indexAnyInvalid .hashEnc v.val = none →
        UnmarshalTree (paramTI p) { Prefix := none, Fragments := [.value v] } L =
          .ok [("S", v.val)]) ∧
    (¬ (p <+: v.val) →
        UnmarshalTree (paramTI p) { Prefix := none, Fragments := [.value v] } L =
          .error { val := "value", Offset := v.endPos, Field := "S", Msg := "param not found" }) := by
  refine ⟨?_, ?_, ?_⟩
  · intro r hv hval
    have happ : p ++ '=' :: r = (p ++ ['=']) ++ r := by simp
    have hpref : (p ++ ['=']) <+: v.val := by
      rw [hv, happ]; exact List.prefix_append _ _
    have hpref2 : p <+: v.val := by
      rw [hv]; exact List.prefix_append p _
    have hdrop : List.drop (p.length + 1) v.val = r := by
      rw [hv, happ]; exact List.drop_left' (by simp)
    simp [UnmarshalTree, unmarshalPrefix, paramTI, initState, unmarshalFields, unmarshalField,
      closeGroup, unmarshalValueField, unmarshalValue, trimPrefix, paramField, fieldDesc,
      finalizeUnmarshal, checkRest, decodeKind, indirectType, setField, newUnmarshalError, PNode.str,
      PNode.endPos, PNode.typStr, Except.bind, Except.pure, Except.instMonad, hp, hpref, hpref2,
      hdrop, hval]
  · intro hpref2 hnpref hval
    simp [UnmarshalTree, unmarshalPrefix, paramTI, initState, unmarshalFields, unmarshalField,
      closeGroup, unmarshalValueField, unmarshalValue, trimPrefix, paramField, fieldDesc,
      finalizeUnmarshal, checkRest, decodeKind, indirectType, setField, newUnmarshalError, PNode.str,
      PNode.endPos, PNode.typStr, Except.bind, Except.pure, Except.instMonad, hp, hpref2, hnpref,
      hval]
  · intro hnpref
    simp [UnmarshalTree, unmarshalPrefix, paramTI, initState, unmarshalFields, unmarshalField,
      closeGroup, unmarshalValueField, unmarshalValue, trimPrefix, paramField, fieldDesc,
      finalizeUnmarshal, checkRest, decodeKind, indirectType, setField, newUnmarshalError, PNode.str,
      PNode.endPos, PNode.typStr, Except.bind, Except.pure, Except.instMonad, hp, hnpref]

/-- **C5, witness**: the fragment `"x=1"` against the `param:x` field
binds `"1"`. -/
theorem claim_C5_witness :
    UnmarshalTree (paramTI "x".toList)
      { Prefix := none, Fragments := [.value { val := "x=1".toList, pos := 0, endPos := 3 }] } 3 =
      .ok [("S", "1".toList)] :=
  (claim_C5 "x".toList { val := "x=1".toList, pos := 0, endPos := 3 } 3 (by decide)).1
    "1".toList (by decide) (by decide)

/-- **C6**: after the field loop finishes, a still-open group with
unconsumed values is reported as "excessive fragment" at the group's end
offset, and a cursor short of the last fragment is reported as
"excessive fragment" at the next fragment's end offset; in particular
`"x=bar,y=baz,z=foo"` against the two-grouped-fields schema fails with
"excessive fragment" at offset 17, the end of the input. -/
theorem claim_C6 :
    (∀ (ti : typeInfo) (tree : Tree) (L : Nat) (rec0 : Record) (st : UState)
        (vs : List ValueNode),
        unmarshalPrefix ti tree L = .ok rec0 →
        unmarshalFields L ti.Fields (initState ti tree rec0) = .ok st →
        st.groupCtx = some vs → 0 < st.numGroupValues →
        UnmarshalTree ti tree L =
          .error { val := "group", Offset := groupEnd vs, Msg := "excessive fragment" }) ∧
    (∀ (ti : typeInfo) (tree : Tree) (L : Nat) (rec0 : Record) (st : UState),
        unmarshalPrefix ti tree L = .ok rec0 →
        unmarshalFields L ti.Fields (initState ti tree rec0) = .ok st →
        st.groupCtx = none → st.fragIdx < st.Fragments.length →
        UnmarshalTree ti tree L =
          .error { val := (st.Fragments.getD st.fragIdx (.value dummyValueNode)).typStr,
                   Offset := (st.Fragments.getD st.fragIdx (.value dummyValueNode)).endPos,
                   Msg := "excessive fragment" }) ∧
    Unmarshal "x=bar,y=baz,z=foo".toList tiGroupXY =
      .error (.typ { val := "group", Offset := 17, Msg := "excessive fragment" }) ∧
    ("x=bar,y=baz,z=foo".toList).length = 17 := by
  refine ⟨?_, ?_, ?_, ?_⟩
  · intro ti tree L rec0 st vs hpre hloop hctx hn
    unfold UnmarshalTree
    rw [hpre]
    show (unmarshalFields L ti.Fields (initState ti tree rec0)).bind finalizeUnmarshal = _
    rw [hloop]
    show finalizeUnmarshal st = _
    unfold finalizeUnmarshal
    rw [hctx]
    simp [hn]
  · intro ti tree L rec0 st hpre hloop hctx hidx
    unfold UnmarshalTree
    rw [hpre]
    show (unmarshalFields L ti.Fields (initState ti tree rec0)).bind finalizeUnmarshal = _
    rw [hloop]
    show finalizeUnmarshal st = _
    unfold finalizeUnmarshal
    rw [hctx]
    simp [checkRest, hidx]
  · decide
  · decide

/-- A string with no `$` or `,` has no delimiter for the lexer. -/
theorem indexAny_eq_none {s : Str} (h : ∀ c ∈ s, ¬(c = '$' ∨ c = ',')) : indexAny s = none := by
  induction s with
  | nil => rfl
  | cons c rest ih =>
    simp only [indexAny]
    rw [if_neg (h c (by simp)), ih (fun c hc => h c (by simp [hc]))]
    rfl

/-- A string drawn from an encoding's alphabet passes its validation. -/
theorem indexAnyInvalid_eq_none {e : Enc} {s : Str} (h : ∀ c ∈ s, c ∈ e.alphabet) :
    indexAnyInvalid e s = none := by
  induction s with
  | nil => rfl
  | cons c rest ih =>
    simp only [indexAnyInvalid]
    rw [if_pos (h c (by simp)), ih (fun c hc => h c (by simp [hc]))]
    rfl

/-- The hash alphabet contains neither delimiters nor the BSDi `_`. -/
theorem hashAlphabet_plain : ∀ c ∈ hashAlphabet, ¬(c = '$' ∨ c = ',') ∧ c ≠ '_' := by decide

/-- A nonempty input drawn from the hash alphabet lexes to a single
`Value` token followed by `EOF`. -/
theorem lex_hashValid {s : Str} (hne : s ≠ []) (hv : ∀ c ∈ s, c ∈ hashAlphabet) :
    lex s = [{ typ := .tokenValue, pos := 0, val := s },
             { typ := .tokenEOF, pos := s.length, val := [] }] := by
  obtain ⟨c, rest, rfl⟩ : ∃ c rest, s = c :: rest := by
    cases s with
    | nil => exact absurd rfl hne
    | cons c rest => exact ⟨c, rest, rfl⟩
  have hc := hashAlphabet_plain c (hv c (by simp))
  have hidx : indexAny (c :: rest) = none :=
    indexAny_eq_none (fun x hx => (hashAlphabet_plain x (hv x hx)).1)
  have hd : c ≠ '$' := fun hcc => hc.1 (Or.inl hcc)
  unfold lex
  rw [if_neg (by simp [hd])]
  unfold lexUnderscore
  rw [if_neg (by simp [hc.2])]
  unfold lexFragment lexFragmentGo
  rw [List.drop_zero] at *
  rw [hidx]
  simp

/-- **C2, amended**: Round-trip B fails in general (see the
counterexample: a trailing `"$"` yields no fragment), but holds for the
single-required-string-field schema on every nonempty input drawn from
the hash alphabet: such an input is one delimiter-free fragment, the
engine binds the field to the whole input, and marshaling reproduces it
exactly. -/
theorem claim_C2 (s : Str) (hne : s ≠ []) (hv : ∀ c ∈ s, c ∈ hashAlphabet) :
    Unmarshal s tiS = .ok [("S", s)] ∧ Marshal tiS [("S", s)] = .ok s := by
  have htiS : tiS =
      { HashPrefix := none,
        Fields := [{ Index := [0], Name := "S", Typ := .stringT, Tag := [], Opts := {} }],
        NumReqValues := 1 } := by decide
  have hval := indexAnyInvalid_eq_none (e := .hashEnc) hv
  have hlex := lex_hashValid hne hv
  have hlen : 0 < s.length := List.length_pos.mpr hne
  constructor
  · unfold Unmarshal Parse
    rw [hlex, htiS]
    simp [parseTokens, UnmarshalTree, unmarshalPrefix, initState, unmarshalFields,
      unmarshalField, closeGroup, unmarshalValueField, unmarshalValue, trimPrefix, fieldDesc,
      finalizeUnmarshal, checkRest, decodeKind, indirectType, setField, newUnmarshalError, PNode.str,
      PNode.endPos, PNode.typStr, Except.bind, Except.pure, Except.instMonad, Except.mapError,
      hval, hlen]
  · rw [htiS]
    simp [Marshal, marshalFields, marshalValue, marshalRender, isEmptyVal, getField,
      indirectType, Except.bind, Except.pure, Except.instMonad, hval, List.find?]

/-- **C2, witness**: the amended round trip at the input `"a"`. -/
theorem claim_C2_witness :
    Unmarshal ['a'] tiS = .ok [("S", ['a'])] ∧ Marshal tiS [("S", ['a'])] = .ok ['a'] :=
  claim_C2 ['a'] (by decide) (by decide)

/-- **C6, witness**: the run of the field loop on Scenario 5's input
leaves the group context open with one unconsumed value (`z=foo`), and
the two general finalization rules apply to it. -/
theorem claim_C6_witness :
    UnmarshalTree tiGroupXY
      (((Parse "x=bar,y=baz,z=foo".toList).toOption).getD {})
      ("x=bar,y=baz,z=foo".toList).length =
      .error { val := "group",
               Offset := groupEnd
                 [{ val := "x=bar".toList, pos := 0, endPos := 5 },
                  { val := "y=baz".toList, pos := 6, endPos := 11 },
                  { val := "z=foo".toList, pos := 12, endPos := 17 }],
               Msg := "excessive fragment" } :=
  claim_C6.1 tiGroupXY (((Parse "x=bar,y=baz,z=foo".toList).toOption).getD {})
    ("x=bar,y=baz,z=foo".toList).length []
    { fragIdx := 0, numValues := 1, numReqValues := 0,
      groupCtx := some
        [{ val := "x=bar".toList, pos := 0, endPos := 5 },
         { val := "y=baz".toList, pos := 6, endPos := 11 },
         { val := "z=foo".toList, pos := 12, endPos := 17 }],
      numGroupValues := 1,
      Fragments := [.group
        [{ val := "x=bar".toList, pos := 0, endPos := 5 },
         { val := "y=baz".toList, pos := 6, endPos := 11 },
         { val := "z=foo".toList, pos := 12, endPos := 17 }]],
      record := [("S1", "bar".toList), ("S2", "baz".toList)] }
    [{ val := "x=bar".toList, pos := 0, endPos := 5 },
     { val := "y=baz".toList, pos := 6, endPos := 11 },
     { val := "z=foo".toList, pos := 12, endPos := 17 }]
    (by decide) (by decide) (by decide) (by decide)

/-- No `Error` token is ever produced by the fragment-scanning state. -/
theorem lexFragmentGo_no_error (fuel : Nat) :
    ∀ (rem : Str) (pos : Nat) (t : token),
      t ∈ lexFragmentGo fuel rem pos → t.typ ≠ .tokenError := by
  induction fuel with
  | zero => intro rem pos t ht; simp [lexFragmentGo] at ht
  | succ n ih =>
    intro rem pos t ht
    simp only [lexFragmentGo] at ht
    split at ht
    · rcases List.mem_cons.mp ht with rfl | ht
      · simp
      rcases List.mem_cons.mp ht with rfl | ht
      · dsimp only
        split <;> simp
      · exact ih _ _ _ ht
    · split at ht <;> simp only [List.mem_cons, List.mem_singleton] at ht <;>
        rcases ht with rfl | ht <;> simp_all

/-- **C8, amended**: the two prefix-state error cases are as claimed (and
an `Error` token is always the final token); but in the success case the
`Prefix` token spanning through the delimiter inclusive is followed by a
*second* one-character `Prefix` token whenever the character right after
the delimiter is `'_'` (the underscore check in the lexer is not an
`else` branch), so "exactly one Prefix token" fails; see the
counterexample. -/
theorem claim_C8 :
    (∀ input : Str, input.head? = some '$' → indexAny (input.drop 1) = none →
        lex input =
          [{ typ := .tokenError, pos := input.length, val := "missing prefix end".toList }] ∧
        Parse input = .error { Offset := input.length, Msg := "missing prefix end".toList }) ∧
    (∀ input : Str, input.head? = some '$' → indexAny (input.drop 1) = some 0 →
        lex input =
          [{ typ := .tokenError, pos := 1, val := "missing prefix identifier".toList }] ∧
        Parse input = .error { Offset := 1, Msg := "missing prefix identifier".toList }) ∧
    (∀ (input : Str) (i : Nat), input.head? = some '$' → indexAny (input.drop 1) = some i →
        i ≠ 0 →
        ((input.drop (i + 2)).head? = some '_' →
          lex input =
            { typ := .tokenPrefix, pos := 0, val := input.take (i + 2) } ::
            { typ := .tokenPrefix, pos := i + 2, val := ['_'] } ::
              lexFragment (input.drop (i + 2 + 1)) (i + 2 + 1)) ∧
        (¬ (input.drop (i + 2)).head? = some '_' →
          lex input =
            { typ := .tokenPrefix, pos := 0, val := input.take (i + 2) } ::
              lexFragment (input.drop (i + 2)) (i + 2))) ∧
    (∀ (input : Str) (t : token), t ∈ lex input → t.typ = .tokenError → lex input = [t]) := by
  refine ⟨?_, ?_, ?_, ?_⟩
  · intro input h1 h2
    constructor
    · unfold lex; rw [if_pos h1, h2]
    · unfold Parse lex; rw [if_pos h1, h2]; rfl
  · intro input h1 h2
    constructor
    · unfold lex; rw [if_pos h1, h2]; rfl
    · unfold Parse lex; rw [if_pos h1, h2]; rfl
  · intro input i h1 h2 hi
    constructor
    · intro hu
      simp only [lex, h1, h2]
      rw [if_neg hi]
      unfold lexUnderscore
      rw [if_pos hu]
      simp
    · intro hu
      simp only [lex, h1, h2]
      rw [if_neg hi]
      unfold lexUnderscore
      rw [if_neg hu]
      simp
  · intro input t ht herr
    unfold lex at ht ⊢
    by_cases h1 : input.head? = some '$'
    · rw [if_pos h1] at ht ⊢
      cases h2 : indexAny (input.drop 1) with
      | none =>
          rw [h2] at ht
          simp only [List.mem_singleton] at ht
          rw [ht]
      | some i =>
          rw [h2] at ht
          dsimp only at ht ⊢
          by_cases hi : i = 0
          · rw [if_pos hi] at ht ⊢
            simp only [List.mem_singleton] at ht
            rw [ht]
          · rw [if_neg hi] at ht ⊢
            exfalso
            rcases List.mem_cons.mp ht with rfl | ht
            · simp at herr
            · unfold lexUnderscore at ht
              split at ht
              · rcases List.mem_cons.mp ht with rfl | ht
                · simp at herr
                · exact lexFragmentGo_no_error _ _ _ _ ht herr
              · exact lexFragmentGo_no_error _ _ _ _ ht herr
    · rw [if_neg h1] at ht ⊢
      exfalso
      unfold lexUnderscore at ht
      split at ht
      · rcases List.mem_cons.mp ht with rfl | ht
        · simp at herr
        · exact lexFragmentGo_no_error _ _ _ _ ht herr
      · exact lexFragmentGo_no_error _ _ _ _ ht herr

/-- **C8, witness**: `"$foo"` has no delimiter after the leading `'$'`,
so the lexer emits `Error("missing prefix end")` at offset 4 and `Parse`
fails there. -/
theorem claim_C8_witness :
    lex "$foo".toList =
      [{ typ := .tokenError, pos := ("$foo".toList).length, val := "missing prefix end".toList }] ∧
    Parse "$foo".toList =
      .error { Offset := ("$foo".toList).length, Msg := "missing prefix end".toList } :=
  claim_C8.1 "$foo".toList (by decide) (by decide)

/-- The collection loop of `field` visits exactly the fields tagged with
the requested param, in order. -/
theorem collectParam_eq (p : Str) (l : List fieldInfo) (acc : List fieldInfo) :
    collectParam p acc l = collectGo acc (l.filter (fun f => f.Opts.Param = p)) := by
  induction l generalizing acc with
  | nil => rfl
  | cons f rest ih =>
    by_cases hf : f.Opts.Param = p
    · rw [List.filter_cons_of_pos (by simpa using hf)]
      simp only [collectParam, hf, collectGo]
      rw [if_neg (by simp [hf])]
      split
      · rfl
      · exact ih _
    · rw [List.filter_cons_of_neg (by simpa using hf)]
      simp only [collectParam]
      rw [if_pos (by simpa using hf)]
      exact ih _

/-- When no two collected fields conflict, `field` collects them all. -/
theorem collectGo_ok {acc m res : List fieldInfo} (h : collectGo acc m = .ok res) :
    res = acc ++ m := by
  induction m generalizing acc with
  | nil => simp only [collectGo] at h; injection h with h; simp [h.symm]
  | cons f rest ih =>
    simp only [collectGo] at h
    split at h
    · exact absurd h (by simp)
    · have := ih h
      simp [this]

/-- The selected minimum is one of the candidates. -/
theorem minByIndex_mem (rest : List fieldInfo) : ∀ f, minByIndex f rest ∈ f :: rest := by
  induction rest with
  | nil => intro f; simp [minByIndex]
  | cons g rest ih =>
    intro f
    simp only [minByIndex]
    rcases List.mem_cons.mp (ih (if indexLess g.Index f.Index then g else f)) with h | h
    · rw [h]
      by_cases hc : indexLess g.Index f.Index <;> simp [hc]
    · simp [h]

/-- `field` returns a field actually tagged with the requested param. -/
theorem tiField_param {ti : typeInfo} {q : Str} {fi : fieldInfo}
    (h : tiField ti q = .ok (some fi)) : fi.Opts.Param = q := by
  unfold tiField at h
  rw [collectParam_eq] at h
  cases hc : collectGo [] (ti.Fields.filter (fun f => f.Opts.Param = q)) with
  | error e => rw [hc] at h; exact absurd h (by simp [Except.map])
  | ok res =>
      rw [hc] at h
      have hres := collectGo_ok hc
      simp only [List.nil_append] at hres
      subst hres
      simp only [Except.map] at h
      split at h
      · exact absurd h (by simp)
      · rename_i f rest heq
        injection h with h
        injection h with h
        subst h
        have hmem := minByIndex_mem rest f
        rw [← heq] at hmem
        have := List.of_mem_filter hmem
        simpa using this

/-- Through `normalize`, the output field list keeps exactly one
`FieldSpec` per param name: the one `field` resolves, appended at the
first occurrence of the param. -/
theorem normalizeLoop_filter (all : List fieldInfo) (p : Str) (g : fieldInfo)
    (hg : tiField { Fields := all } p = .ok (some g)) (hp : p ≠ []) :
    ∀ (l fields : List fieldInfo) (params : List Str) (pre : Option fieldInfo) (req : Int)
      (ti' : typeInfo),
      normalizeLoop all l fields params pre req = .ok ti' →
      ti'.Fields.filter (fun f => f.Opts.Param = p) =
        fields.filter (fun f => f.Opts.Param = p) ++
          (if p ∉ params ∧ l.any (fun f => decide (f.Opts.Param = p)) then [g] else []) := by
  intro l
  induction l with
  | nil =>
    intro fields params pre req ti' h
    simp only [normalizeLoop] at h
    injection h with h
    subst h
    simp
  | cons f rest ih =>
    intro fields params pre req ti' h
    simp only [normalizeLoop] at h
    split at h
    · exact absurd h (by simp)
    · rename_i hv
      have hv2 : ¬f.Opts.Param = [] → f.Opts.Prefix = false := by
        have hvs := (by simpa [validOpts] using hv :
          (((f.Opts.OmitEmpty = true → f.Opts.Inline = false) ∧
            (f.Opts.Group = true → ¬f.Opts.Param = [])) ∧
            (¬f.Opts.Param = [] → f.Opts.Prefix = false)) ∧
            (f.Opts.Inline = true → f.Opts.Prefix = false ∧ ¬f.Opts.Length = 0))
        exact hvs.1.2
      split at h
      · -- prefix field: its param must be empty, hence not p
        rename_i hpre
        have hfp : f.Opts.Param = [] := by
          by_contra hne
          simp [hv2 hne] at hpre
        rw [ih _ _ _ _ _ h]
        have hnp : ¬(f.Opts.Param = p) := by rw [hfp]; exact Ne.symm hp
        simp [hnp]
      · rename_i hpre
        split at h
        · -- plain positional field, appended as-is
          rename_i hfp
          have hnp : ¬(f.Opts.Param = p) := by rw [hfp]; exact Ne.symm hp
          rw [ih _ _ _ _ _ h]
          simp [hnp, List.filter_append]
        · rename_i hfp
          split at h
          · -- param already seen: skipped
            rename_i hmem
            rw [ih _ _ _ _ _ h]
            by_cases hfpp : f.Opts.Param = p
            · subst hfpp
              simp [hmem]
            · simp [hfpp]
          · rename_i hmem
            -- param not yet seen: resolve through tiField
            split at h
            · exact absurd h (by simp)
            · -- tiField returned none: impossible when the param is p
              rename_i heq
              by_cases hfpp : f.Opts.Param = p
              · rw [hfpp, hg] at heq
                exact absurd (Except.ok.inj heq) (by simp)
              · rw [ih _ _ _ _ _ h]
                simp [hfpp]
            · rename_i fi heq
              have hfip : fi.Opts.Param = f.Opts.Param := tiField_param heq
              by_cases hfpp : f.Opts.Param = p
              · -- this is the first field carrying p: g is appended
                rw [hfpp] at heq
                rw [hg] at heq
                have hfig : fi = g := (Option.some.inj (Except.ok.inj heq)).symm
                subst hfig
                rw [ih _ _ _ _ _ h]
                have hgp : fi.Opts.Param = p := by rw [hfip, hfpp]
                have hpmem : p ∉ params := hfpp ▸ hmem
                simp [List.filter_append, hgp, hfpp, hpmem]
              · have hfinp : ¬(fi.Opts.Param = p) := by rw [hfip]; exact hfpp
                rw [ih _ _ _ _ _ h]
                have hne2 : ¬(p = f.Opts.Param) := fun hh => hfpp hh.symm
                simp [List.filter_append, hfinp, hfpp, hne2]

/-- **C9**: when exactly two fields share a param name, `field` resolves
them by index-path depth: at different depths the shallower one shadows
the deeper one and compilation keeps exactly one `FieldSpec` for that
param (the shallower), while at equal depth compilation fails with a
`TagParamError` naming both fields and their tags. -/
theorem claim_C9 :
    (∀ (ti : typeInfo) (p : Str) (f1 f2 : fieldInfo),
        ti.Fields.filter (fun f => f.Opts.Param = p) = [f1, f2] →
        f1.Index.length ≠ f2.Index.length →
        tiField ti p = .ok (some (if f1.Index.length < f2.Index.length then f1 else f2))) ∧
    (∀ (ti : typeInfo) (p : Str) (f1 f2 : fieldInfo),
        ti.Fields.filter (fun f => f.Opts.Param = p) = [f1, f2] →
        f1.Index.length = f2.Index.length →
        tiField ti p = .error { Field1 := f2.Name, Tag1 := f2.Tag,
                                Field2 := f1.Name, Tag2 := f1.Tag }) ∧
    (∀ (raw : List fieldInfo) (p : Str) (f1 f2 : fieldInfo) (ti' : typeInfo),
        p ≠ [] →
        raw.filter (fun f => f.Opts.Param = p) = [f1, f2] →
        f1.Index.length ≠ f2.Index.length →
        normalize raw = .ok ti' →
        ti'.Fields.filter (fun f => f.Opts.Param = p) =
          [if f1.Index.length < f2.Index.length then f1 else f2]) := by
  have key : ∀ (ti : typeInfo) (p : Str) (f1 f2 : fieldInfo),
      ti.Fields.filter (fun f => f.Opts.Param = p) = [f1, f2] →
      f1.Index.length ≠ f2.Index.length →
      tiField ti p = .ok (some (if f1.Index.length < f2.Index.length then f1 else f2)) := by
    intro ti p f1 f2 hfil hne
    have hne' : ¬(f2.Index.length = f1.Index.length) := fun hh => hne hh.symm
    unfold tiField
    rw [collectParam_eq, hfil]
    simp only [collectGo, List.find?]
    rw [decide_eq_false hne']
    simp only [List.nil_append, List.singleton_append, Except.map]
    simp only [minByIndex, indexLess]
    rcases Nat.lt_or_ge f1.Index.length f2.Index.length with hlt | hge
    · have h1 : ¬(f2.Index.length < f1.Index.length) := by omega
      simp [hne', h1, hlt]
    · have h2 : f2.Index.length < f1.Index.length := by omega
      have h3 : ¬(f1.Index.length < f2.Index.length) := by omega
      simp [hne', h2, h3]
  refine ⟨key, ?_, ?_⟩
  · intro ti p f1 f2 hfil heq
    unfold tiField
    rw [collectParam_eq, hfil]
    simp only [collectGo, List.find?]
    rw [decide_eq_true heq.symm]
    rfl
  · intro raw p f1 f2 ti' hp hfil hne hnorm
    have hg := key { Fields := raw } p f1 f2 (by simpa using hfil) hne
    have hany : raw.any (fun f => decide (f.Opts.Param = p)) = true := by
      have hmem : f1 ∈ raw.filter (fun f => f.Opts.Param = p) := by rw [hfil]; simp
      rcases List.mem_filter.mp hmem with ⟨hm, hpred⟩
      exact List.any_eq_true.mpr ⟨f1, hm, hpred⟩
    have := normalizeLoop_filter raw p _ hg hp raw [] [] none 0 ti' hnorm
    rw [this]
    simp [hany]

/-- **C9, witness**: two fields both tagged `param:x` at the same depth
(Scenario 4) make the schema compiler fail with a `TagParamError` naming
`S2` and `S1` and their tags. -/
theorem claim_C9_witness :
    tiField { Fields := [compileField [0] "S1" .stringT [.paramT "x".toList],
                         compileField [1] "S2" .stringT [.paramT "x".toList]] } "x".toList =
      .error { Field1 := (compileField [1] "S2" .stringT [.paramT "x".toList]).Name,
               Tag1 := (compileField [1] "S2" .stringT [.paramT "x".toList]).Tag,
               Field2 := (compileField [0] "S1" .stringT [.paramT "x".toList]).Name,
               Tag2 := (compileField [0] "S1" .stringT [.paramT "x".toList]).Tag } :=
  claim_C9.2.1
    { Fields := [compileField [0] "S1" .stringT [.paramT "x".toList],
                 compileField [1] "S2" .stringT [.paramT "x".toList]] }
    "x".toList
    (compileField [0] "S1" .stringT [.paramT "x".toList])
    (compileField [1] "S2" .stringT [.paramT "x".toList])
    (by decide) (by decide)

/-- A plain optional field is silently left default when the cursor has
no fragments left. -/
theorem unmarshalField_plain_eof (L : Nat) (nm : String) (opt : Bool) (st : UState)
    (hctx : st.groupCtx = none) (hend : st.Fragments.length ≤ st.fragIdx) (hopt : opt = true) :
    unmarshalField L (plainField nm opt) st = .ok st := by
  simp [unmarshalField, closeGroup, plainField, Except.bind, Except.pure, Except.instMonad,
    hctx, hend, hopt]

/-- The optional positional skip step: an `omitempty` field with no open
group is skipped (decrementing `numValues` without consuming a fragment)
when `numValues - numReqValues ≤ 0`. -/
theorem unmarshalField_plain_skip (L : Nat) (nm : String) (opt : Bool) (st : UState)
    (hctx : st.groupCtx = none) (hlt : st.fragIdx < st.Fragments.length)
    (hskip : opt = true ∧ st.numValues - st.numReqValues ≤ 0) :
    unmarshalField L (plainField nm opt) st = .ok { st with numValues := st.numValues - 1 } := by
  have h2 : st.numValues ≤ st.numReqValues := by omega
  simp [unmarshalField, closeGroup, plainField, Except.bind, Except.pure, Except.instMonad,
    hctx, not_le.mpr hlt, hskip.1, h2]

/-- A plain positional field consumes the current (valid, lone-value)
fragment, binding its whole text and advancing the cursor. -/
theorem unmarshalField_plain_bind (L : Nat) (nm : String) (opt : Bool) (st : UState)
    (v : ValueNode)
    (hctx : st.groupCtx = none) (hlt : st.fragIdx < st.Fragments.length)
    (hget : st.Fragments.getD st.fragIdx (.value dummyValueNode) = .value v)
    (hval : indexAnyInvalid .hashEnc v.val = none)
    (hnoskip : ¬(opt = true ∧ st.numValues - st.numReqValues ≤ 0)) :
    unmarshalField L (plainField nm opt) st =
      .ok { st with record := setField st.record nm v.val,
                    numValues := st.numValues - 1,
                    numReqValues := if !opt then st.numReqValues - 1 else st.numReqValues,
                    fragIdx := st.fragIdx + 1 } := by
  have h2 : ¬(opt = true ∧ st.numValues ≤ st.numReqValues) := by
    intro hh
    exact hnoskip ⟨hh.1, by omega⟩
  have hget2 : st.Fragments[st.fragIdx]? = some (FragmentNode.value v) := by
    rw [List.getElem?_eq_getElem hlt]
    rw [List.getD_eq_getElem _ _ hlt] at hget
    exact congrArg some hget
  simp [unmarshalField, closeGroup, plainField, unmarshalValueField, unmarshalValue,
    trimPrefix, decodeKind, indirectType, PNode.str, Except.bind, Except.pure, Except.instMonad,
    hctx, hget2, hval, not_le.mpr hlt, h2]

/-- An optional field does not count as required. -/
theorem reqCount_cons_true (nm : String) (rest : List (String × Bool)) :
    reqCount ((nm, true) :: rest) = reqCount rest := by
  simp [reqCount]

/-- A required field increments the required count. -/
theorem reqCount_cons_false (nm : String) (rest : List (String × Bool)) :
    reqCount ((nm, false) :: rest) = reqCount rest + 1 := by
  simp [reqCount]

/-- An optional field increments the optional count. -/
theorem optCount_cons_true (nm : String) (rest : List (String × Bool)) :
    optCount ((nm, true) :: rest) = optCount rest + 1 := by
  simp [optCount]

/-- A required field does not count as optional. -/
theorem optCount_cons_false (nm : String) (rest : List (String × Bool)) :
    optCount ((nm, false) :: rest) = optCount rest := by
  simp [optCount]

/-- The field loop of the unmarshal engine, on a schema of plain
positional fields against lone valid value fragments, computes exactly
the spec-side left-to-right fill with earliest-eligible skips
(`fillSpec`), consuming every fragment.  The numeric hypotheses are the
loop invariants tying the engine's `numValues`/`numReqValues` counters
to the fragments remaining and the required fields remaining. -/
theorem unmarshalFields_positional (fs : List (String × Bool)) :
    ∀ (L : Nat) (st : UState),
      (∀ fr ∈ st.Fragments, ∃ v : ValueNode, fr = FragmentNode.value v ∧
          indexAnyInvalid .hashEnc v.val = none) →
      st.groupCtx = none →
      st.fragIdx ≤ st.Fragments.length →
      st.numValues ≤ (st.Fragments.length : Int) - st.fragIdx →
      (st.numValues < (st.Fragments.length : Int) - st.fragIdx →
        (st.Fragments.length : Int) - st.fragIdx ≤ (reqCount fs : Int)) →
      st.numReqValues = (reqCount fs : Int) →
      (reqCount fs : Int) ≤ (st.Fragments.length : Int) - st.fragIdx →
      (st.Fragments.length : Int) - st.fragIdx ≤ (reqCount fs : Int) + (optCount fs : Int) →
      ∃ l st',
        fillSpec fs (fragTexts (st.Fragments.drop st.fragIdx)) = some l ∧
        unmarshalFields L (fs.map (fun f => plainField f.1 f.2)) st = .ok st' ∧
        st'.fragIdx = st.Fragments.length ∧ st'.groupCtx = none ∧
        st'.Fragments = st.Fragments ∧
        st'.record = applyBinds st.record l := by
  induction fs with
  | nil =>
    intro L st hfrag hctx hidx hnv hnv2 hreq hlo hhi
    have hm : st.fragIdx = st.Fragments.length := by
      simp [reqCount, optCount] at hlo hhi
      omega
    refine ⟨[], st, ?_, rfl, hm, hctx, rfl, rfl⟩
    rw [List.drop_of_length_le (le_of_eq hm.symm)]
    rfl
  | cons hd rest ih =>
    obtain ⟨nm, opt⟩ := hd
    intro L st hfrag hctx hidx hnv hnv2 hreq hlo hhi
    cases opt with
    | false =>
      rw [reqCount_cons_false] at hreq hlo hhi hnv2
      rw [optCount_cons_false] at hhi
      have hlt : st.fragIdx < st.Fragments.length := by omega
      obtain ⟨v, hfv, hvval⟩ := hfrag _ (List.getElem_mem hlt)
      have hget : st.Fragments.getD st.fragIdx (.value dummyValueNode) = .value v := by
        rw [List.getD_eq_getElem _ _ hlt, hfv]
      have htexts : fragTexts (st.Fragments.drop st.fragIdx) =
          v.val :: fragTexts (st.Fragments.drop (st.fragIdx + 1)) := by
        rw [List.drop_eq_getElem_cons hlt, hfv]; rfl
      have hstep := unmarshalField_plain_bind L nm false st v hctx hlt hget hvval (by simp)
      obtain ⟨l2, st2, hfill2, hrun2, hidx2, hctx2, hfrags2, hrec2⟩ :=
        ih L { st with record := setField st.record nm v.val,
                       numValues := st.numValues - 1,
                       numReqValues := st.numReqValues - 1,
                       fragIdx := st.fragIdx + 1 }
          hfrag hctx (by dsimp only; omega)
          (by dsimp only; omega)
          (by dsimp only; omega)
          (by dsimp only; omega)
          (by dsimp only; omega)
          (by dsimp only; omega)
      have hfill3 : fillSpec rest (fragTexts (st.Fragments.drop (st.fragIdx + 1))) =
          some l2 := hfill2
      refine ⟨(nm, some v.val) :: l2, st2, ?_, ?_, hidx2, hctx2, hfrags2, hrec2⟩
      · rw [htexts, fillSpec]
        rw [if_neg (by simp)]
        rw [hfill3]
        rfl
      · simp only [List.map_cons]
        rw [unmarshalFields, hstep]
        simpa using hrun2
    | true =>
      rw [reqCount_cons_true] at hreq hlo hhi hnv2
      rw [optCount_cons_true] at hhi
      by_cases hEnd : st.Fragments.length ≤ st.fragIdx
      · -- cursor at the end: the optional field stays at its default
        have hstep := unmarshalField_plain_eof L nm true st hctx hEnd rfl
        obtain ⟨l2, st2, hfill2, hrun2, hidx2, hctx2, hfrags2, hrec2⟩ :=
          ih L st hfrag hctx hidx hnv (by omega) (by omega)
            (by omega) (by omega)
        refine ⟨(nm, none) :: l2, st2, ?_, ?_, hidx2, hctx2, hfrags2, by simpa using hrec2⟩
        · rw [List.drop_of_length_le hEnd] at hfill2 ⊢
          show (if true = true then
            (fillSpec rest (fragTexts [])).map (fun l => (nm, none) :: l) else none) = _
          rw [if_pos rfl, hfill2]
          rfl
        · simp only [List.map_cons]
          rw [unmarshalFields, hstep]
          exact hrun2
      · have hlt : st.fragIdx < st.Fragments.length := by omega
        obtain ⟨v, hfv, hvval⟩ := hfrag _ (List.getElem_mem hlt)
        have hget : st.Fragments.getD st.fragIdx (.value dummyValueNode) = .value v := by
          rw [List.getD_eq_getElem _ _ hlt, hfv]
        have htexts : fragTexts (st.Fragments.drop st.fragIdx) =
            v.val :: fragTexts (st.Fragments.drop (st.fragIdx + 1)) := by
          rw [List.drop_eq_getElem_cons hlt, hfv]; rfl
        have hlen : (fragTexts (st.Fragments.drop st.fragIdx)).length =
            st.Fragments.length - st.fragIdx := by
          simp [fragTexts]
        by_cases hskip : st.numValues - st.numReqValues ≤ 0
        · -- the engine skips the optional field without consuming a fragment
          have hmreq : (st.Fragments.length : Int) - st.fragIdx ≤ (reqCount rest : Int) := by
            rcases lt_or_eq_of_le hnv with hlt2 | heq2
            · exact hnv2 hlt2
            · omega
          have hstep := unmarshalField_plain_skip L nm true st hctx hlt ⟨rfl, hskip⟩
          obtain ⟨l2, st2, hfill2, hrun2, hidx2, hctx2, hfrags2, hrec2⟩ :=
            ih L { st with numValues := st.numValues - 1 } hfrag hctx
              (by dsimp only; omega)
              (by dsimp only; omega)
              (by dsimp only; omega)
              (by dsimp only; omega)
              (by dsimp only; omega)
              (by dsimp only; omega)
          have hfill3 : fillSpec rest (fragTexts (st.Fragments.drop st.fragIdx)) =
              some l2 := hfill2
          have hrec3 : st2.record = applyBinds st.record l2 := hrec2
          refine ⟨(nm, none) :: l2, st2, ?_, ?_, hidx2, hctx2, hfrags2, hrec3⟩
          · rw [htexts, fillSpec]
            rw [if_pos ⟨rfl, by rw [← htexts, hlen]; omega⟩]
            rw [← htexts, hfill3]
            rfl
          · simp only [List.map_cons]
            rw [unmarshalFields, hstep]
            exact hrun2
        · -- the engine fills the optional field from the next fragment
          have hstep := unmarshalField_plain_bind L nm true st v hctx hlt hget hvval
            (by rintro ⟨-, hc⟩; exact hskip hc)
          obtain ⟨l2, st2, hfill2, hrun2, hidx2, hctx2, hfrags2, hrec2⟩ :=
            ih L { st with record := setField st.record nm v.val,
                           numValues := st.numValues - 1,
                           numReqValues := st.numReqValues,
                           fragIdx := st.fragIdx + 1 }
              hfrag hctx (by dsimp only; omega)
              (by dsimp only; omega)
              (by dsimp only; omega)
              (by dsimp only; omega)
              (by dsimp only; omega)
              (by dsimp only; omega)
          have hfill3 : fillSpec rest (fragTexts (st.Fragments.drop (st.fragIdx + 1))) =
              some l2 := hfill2
          refine ⟨(nm, some v.val) :: l2, st2, ?_, ?_, hidx2, hctx2, hfrags2, hrec2⟩
          · rw [htexts, fillSpec]
            rw [if_neg (by rw [← htexts, hlen]; rintro ⟨-, hc⟩; apply hskip; omega)]
            rw [hfill3]
            rfl
          · simp only [List.map_cons]
            rw [unmarshalFields, hstep]
            simpa using hrun2

/-- The fill result has one entry per field. -/
theorem fillSpec_length (fs : List (String × Bool)) :
    ∀ (frags : List Str) (l : List (String × Option Str)),
      fillSpec fs frags = some l → l.length = fs.length := by
  induction fs with
  | nil =>
    intro frags l h
    cases frags with
    | nil =>
      simp only [fillSpec] at h
      injection h with h
      subst h
      rfl
    | cons f r => simp [fillSpec] at h
  | cons hd rest ih =>
    obtain ⟨nm, opt⟩ := hd
    intro frags l h
    cases frags with
    | nil =>
      simp only [fillSpec] at h
      split at h
      · rcases Option.map_eq_some'.mp h with ⟨l', hl', rfl⟩
        simp [ih _ _ hl']
      · exact absurd h (by simp)
    | cons f fsr =>
      simp only [fillSpec] at h
      split at h
      · rcases Option.map_eq_some'.mp h with ⟨l', hl', rfl⟩
        simp [ih _ _ hl']
      · rcases Option.map_eq_some'.mp h with ⟨l', hl', rfl⟩
        simp [ih _ _ hl']

/-- The fill binds exactly one fragment per non-skipped entry. -/
theorem fillSpec_binds (fs : List (String × Bool)) :
    ∀ (frags : List Str) (l : List (String × Option Str)),
      fillSpec fs frags = some l →
      (l.filter (fun x => x.2.isSome)).length = frags.length := by
  induction fs with
  | nil =>
    intro frags l h
    cases frags with
    | nil =>
      simp only [fillSpec] at h
      injection h with h
      subst h
      rfl
    | cons f r => simp [fillSpec] at h
  | cons hd rest ih =>
    obtain ⟨nm, opt⟩ := hd
    intro frags l h
    cases frags with
    | nil =>
      simp only [fillSpec] at h
      split at h
      · rcases Option.map_eq_some'.mp h with ⟨l', hl', rfl⟩
        simpa using ih _ _ hl'
      · exact absurd h (by simp)
    | cons f fsr =>
      simp only [fillSpec] at h
      split at h
      · rcases Option.map_eq_some'.mp h with ⟨l', hl', rfl⟩
        simpa using ih _ _ hl'
      · rcases Option.map_eq_some'.mp h with ⟨l', hl', rfl⟩
        simpa [List.filter] using ih _ _ hl'

/-- Bound and skipped entries partition the fill result. -/
theorem filter_some_none_length (l : List (String × Option Str)) :
    (l.filter (fun x => x.2.isSome)).length + (l.filter (fun x => x.2.isNone)).length
      = l.length := by
  induction l with
  | nil => rfl
  | cons x rest ih =>
    cases hx : x.2 <;> simp [List.filter, hx, ← ih] <;> omega

/-- Every positional field is either required or optional. -/
theorem reqCount_add_optCount (fs : List (String × Bool)) :
    reqCount fs + optCount fs = fs.length := by
  induction fs with
  | nil => rfl
  | cons hd rest ih =>
    obtain ⟨nm, opt⟩ := hd
    cases opt
    · rw [reqCount_cons_false, optCount_cons_false, List.length_cons]; omega
    · rw [reqCount_cons_true, optCount_cons_true, List.length_cons]; omega

/-- The texts of lone-value fragments are their values. -/
theorem fragTexts_map_value (frags : List ValueNode) :
    fragTexts (frags.map FragmentNode.value) = frags.map ValueNode.val := by
  induction frags with
  | nil => rfl
  | cons v rest ih =>
    simp only [List.map_cons, fragTexts, List.map_map] at ih ⊢
    rw [ih]

/-- **C1, amended**: for schemas consisting only of plain positional
fields (required or `omitempty`) — no group or inline fields — the
engine realises the claimed rule: with `|R| ≤ k ≤ |R|+|O|` valid
fragments it succeeds, filling fields left-to-right and skipping exactly
`|R|+|O|-k` optional fields, always the earliest whose skipping leaves
enough fragments for the remaining required fields (`fillSpec`); and
Scenario 2 unmarshals `"$test$a$b$c"` to `A="a"`, `B="b"`, `C="c"` with
every optional field at its default and no error.  (The rule as claimed
for *every* schema fails once a group field precedes an optional one —
see the counterexample — because consuming a group does not decrement
the engine's `numValues` counter.) -/
theorem claim_C1 :
    (∀ (fs : List (String × Bool)) (frags : List ValueNode) (L : Nat),
        (∀ v ∈ frags, indexAnyInvalid .hashEnc v.val = none) →
        reqCount fs ≤ frags.length →
        frags.length ≤ reqCount fs + optCount fs →
        ∃ l, fillSpec fs (frags.map ValueNode.val) = some l ∧
          UnmarshalTree (positionalTI fs)
            { Prefix := none, Fragments := frags.map FragmentNode.value } L =
            .ok (applyBinds [] l) ∧
          (l.filter (fun x => x.2.isSome)).length = frags.length ∧
          (l.filter (fun x => x.2.isNone)).length = reqCount fs + optCount fs - frags.length) ∧
    Unmarshal "$test$a$b$c".toList tiScen2 =
      .ok [("HashPrefix", "$test$".toList), ("A", ['a']), ("B", ['b']), ("C", ['c'])] ∧
    (∀ nm ∈ ["O1", "O2", "O3", "O4", "O5", "O6"],
      getField [("HashPrefix", "$test$".toList), ("A", ['a']), ("B", ['b']), ("C", ['c'])] nm
        = []) := by
  refine ⟨?_, by decide, by decide⟩
  intro fs frags L hv hlo hhi
  obtain ⟨l, st', hfill, hrun, hidx', hctx', hfrags', hrec'⟩ :=
    unmarshalFields_positional fs L
      (initState (positionalTI fs) { Prefix := none, Fragments := frags.map FragmentNode.value }
        [])
      (by
        intro fr hfr
        dsimp only [initState] at hfr
        rcases List.mem_map.mp hfr with ⟨v, hvm, rfl⟩
        exact ⟨v, rfl, hv v hvm⟩)
      rfl
      (by dsimp only [initState]; omega)
      (by dsimp only [initState]; omega)
      (by dsimp only [initState]; omega)
      rfl
      (by dsimp only [initState, positionalTI]; simp; omega)
      (by dsimp only [initState, positionalTI]; simp; omega)
  have hfill2 : fillSpec fs (frags.map ValueNode.val) = some l := by
    rw [← fragTexts_map_value]
    have h0 : (initState (positionalTI fs)
        { Prefix := none, Fragments := frags.map FragmentNode.value } []).Fragments.drop
          (initState (positionalTI fs)
            { Prefix := none, Fragments := frags.map FragmentNode.value } []).fragIdx =
        frags.map FragmentNode.value := rfl
    rw [h0] at hfill
    exact hfill
  refine ⟨l, hfill2, ?_, ?_, ?_⟩
  · show (unmarshalPrefix (positionalTI fs)
      { Prefix := none, Fragments := frags.map FragmentNode.value } L).bind _ = _
    have hpre : unmarshalPrefix (positionalTI fs)
        { Prefix := none, Fragments := frags.map FragmentNode.value } L = .ok [] := rfl
    rw [hpre]
    show (unmarshalFields L (positionalTI fs).Fields _).bind finalizeUnmarshal = _
    have hfieldseq : (positionalTI fs).Fields = fs.map (fun f => plainField f.1 f.2) := rfl
    rw [hfieldseq, hrun]
    show finalizeUnmarshal st' = _
    unfold finalizeUnmarshal
    rw [hctx']
    show checkRest st' = _
    unfold checkRest
    have hnolt : ¬(st'.fragIdx < st'.Fragments.length) := by
      rw [hidx', hfrags']
      simp
    rw [if_neg hnolt, hrec']
    rfl
  · rw [fillSpec_binds fs _ _ hfill2]
    simp
  · have h1 := fillSpec_length fs _ _ hfill2
    have h2 := fillSpec_binds fs _ _ hfill2
    have h3 := filter_some_none_length l
    have h4 := reqCount_add_optCount fs
    simp at h2
    omega

/-- **C1, counterexample**: in the schema `{G param:x,group; O omitempty;
A}` against `"x=1$a"`, when the engine reaches `O` no group is open, one
fragment (`"a"`) remains and one required field (`A`) follows, so the
claimed rule says `O` is skipped and the run succeeds with `A="a"`.  The
engine instead binds `"a"` to `O` (after the consumed group, `numValues`
is still 2, so `numValues - numReqValues = 1 > 0`) and then fails with
"unexpected EOF" on `A`. -/
theorem claim_C1_counterexample :
    (tiGOA.Fields.map (fun f => (f.Opts.Group, f.Opts.OmitEmpty))) =
      [(true, false), (false, true), (false, false)] ∧
    Unmarshal "x=1$a".toList tiGOA =
      .error (.typ { val := "EOF", Offset := 5, Field := "A", Msg := "unexpected EOF" }) := by
  decide

/-- **C4, amended**: in `Marshal`, two consecutive emitted fields are
joined with *no* separator whenever the first (previous) one is
`inline` — whether or not the second is; with `','` when both are
`group` fields (the code never compares their param-name families); and
with `'$'` otherwise.  A param-tagged field's rendered text is prefixed
with `<paramName>=`. -/
theorem claim_C4 (f1 f2 : fieldInfo) (r : Record) (s1 s2 : Str)
    (h1 : ¬(f1.Opts.OmitEmpty = true ∧ isEmptyVal (getField r f1.Name) = true))
    (h2 : ¬(f2.Opts.OmitEmpty = true ∧ isEmptyVal (getField r f2.Name) = true))
    (hm1 : marshalValue f1 (getField r f1.Name) = .ok s1)
    (hm2 : marshalValue f2 (getField r f2.Name) = .ok s2) :
    Marshal { HashPrefix := none, Fields := [f1, f2], NumReqValues := 0 } r =
      .ok ((if f1.Opts.Param ≠ [] then f1.Opts.Param ++ ['='] else []) ++ s1 ++
           (if f1.Opts.Inline then []
            else if f1.Opts.Group ∧ f2.Opts.Group then [','] else ['$']) ++
           (if f2.Opts.Param ≠ [] then f2.Opts.Param ++ ['='] else []) ++ s2) := by
  simp only [Marshal, marshalFields, hm1, hm2, if_neg h1, if_neg h2]
  simp [List.append_assoc]

/-- **C4, witness**: the separator rule at the inline/non-inline field
pair of `tiInline`'s shape: the rendered texts are concatenated with no
separator, giving `"foobar"`. -/
theorem claim_C4_witness :
    Marshal { HashPrefix := none,
              Fields := [compileField [0] "S1" .stringT [.inlineT, .lengthT 3],
                         compileField [1] "S2" .stringT [.lengthT 3]],
              NumReqValues := 0 }
      [("S1", "foo".toList), ("S2", "bar".toList)] = .ok "foobar".toList := by
  have h := claim_C4 (compileField [0] "S1" .stringT [.inlineT, .lengthT 3])
    (compileField [1] "S2" .stringT [.lengthT 3])
    [("S1", "foo".toList), ("S2", "bar".toList)] "foo".toList "bar".toList
    (by decide) (by decide) (by decide) (by decide)
  exact h.trans (by decide)

/-- **C1, witness**: the amended theorem at the two-field schema
`{A required, O optional}` with the single fragment `"a"`. -/
theorem claim_C1_witness :
    ∃ l, fillSpec [("A", false), ("O", true)]
        ([({ val := ['a'], pos := 0, endPos := 1 } : ValueNode)].map ValueNode.val) = some l ∧
      UnmarshalTree (positionalTI [("A", false), ("O", true)])
        { Prefix := none,
          Fragments := [({ val := ['a'], pos := 0, endPos := 1 } : ValueNode)].map
            FragmentNode.value } 1 =
        .ok (applyBinds [] l) ∧
      (l.filter (fun x => x.2.isSome)).length =
        [({ val := ['a'], pos := 0, endPos := 1 } : ValueNode)].length ∧
      (l.filter (fun x => x.2.isNone)).length =
        reqCount [("A", false), ("O", true)] + optCount [("A", false), ("O", true)] -
          [({ val := ['a'], pos := 0, endPos := 1 } : ValueNode)].length :=
  claim_C1.1 [("A", false), ("O", true)] [{ val := ['a'], pos := 0, endPos := 1 }] 1
    (by decide) (by decide) (by decide)

end GoCrypt
